import Mathlib

/-!
Shallow embedding of the geometric core of the smart-wing-concept repository
(`Airfoil.py`): the raw-coordinate parser `parseCoordinates`, the spacing /
spline-interpolation routine `splineInterpolation`, and the `Airfoil` class
state.  Coordinates are embedded as elements of a linear ordered field
(instantiated at `ℚ` for executable evaluation and at `ℝ` where the code
uses `math.pi` and `cos`).
-/

namespace SmartWing

/-- The coordinate dictionary returned by `parseCoordinates` and
`splineInterpolation` (keys `x`, `y`, `x_suction`, `y_suction`,
`x_pressure`, `y_pressure`; all values are lists). -/
structure Coords (α : Type) where
  x : List α
  y : List α
  x_suction : List α
  y_suction : List α
  x_pressure : List α
  y_pressure : List α
deriving DecidableEq

section Parse

variable {α : Type} [LinearOrderedField α]

/-- Binary minimum, written out so that it reduces in the kernel. -/
def min2 {β : Type} [LinearOrder β] (a b : β) : β := if a ≤ b then a else b

/-- Binary maximum, written out so that it reduces in the kernel. -/
def max2 {β : Type} [LinearOrder β] (a b : β) : β := if a ≤ b then b else a

/-- Python's `min` over a nonempty list (`min(temp[:2])` etc.);
`minl [] = 0` is never reached because the parser guards empty input. -/
def minl : List ℕ → ℕ
  | [] => 0
  | h :: t => t.foldl min2 h

/-- Python's `max` over a nonempty list of numbers; the default on the
empty list is never used by the parser (it returns `none` instead,
mirroring the `ValueError` Python raises there). -/
def maxl {β : Type} [LinearOrder β] [Zero β] : List β → β
  | [] => 0
  | h :: t => t.foldl max2 h

/-- Lexicographic order on pairs, as used by Python's `sorted` on tuples. -/
def lexLe (p q : α × α) : Prop :=
  p.1 < q.1 ∨ (p.1 = q.1 ∧ p.2 ≤ q.2)

instance : DecidableRel (lexLe (α := α)) := fun p q =>
  inferInstanceAs (Decidable (_ ∨ _))

/-- Python's stable `sorted` on a list of coordinate pairs. -/
def sortPairs (l : List (α × α)) : List (α × α) :=
  l.insertionSort lexLe

/-- `np.argsort(x)`: the indices that would sort `x` ascending (stable for
the small arrays at hand). -/
def argsort (x : List α) : List ℕ :=
  (List.range x.length).insertionSort (fun i j => x.getD i 0 ≤ x.getD j 0)

/-- Python slice `l[a : b+1]`. -/
def sliceIncl {β : Type} (l : List β) (a b : ℕ) : List β :=
  (l.drop a).take (b + 1 - a)

/-- `limits_surf1 = sorted([min(temp[:2]), min(temp[-2:])])`
(`Airfoil.py` line 57), as an ordered pair. -/
def limitsSurf1 (x : List α) : ℕ × ℕ :=
  let temp := argsort x
  let a := minl (temp.take 2)
  let b := minl (temp.drop (temp.length - 2))
  (min2 a b, max2 a b)

/-- `limits_surf2 = sorted([max(temp[:2]), max(temp[-2:])])`
(`Airfoil.py` line 58), as an ordered pair. -/
def limitsSurf2 (x : List α) : ℕ × ℕ :=
  let temp := argsort x
  let a := maxl (temp.take 2)
  let b := maxl (temp.drop (temp.length - 2))
  (min2 a b, max2 a b)

/-- `[(0.0, 0.0)] + sorted(list(zip(xs, ys)))[1:-1] + [(1.0, 0.0)]`:
one normalized surface as a list of points (`Airfoil.py` lines 63-67). -/
def surfacePoints (xs ys : List α) : List (α × α) :=
  ((0 : α), (0 : α)) :: ((sortPairs (xs.zip ys)).tail.dropLast ++ [((1 : α), (0 : α))])

/-- `parseCoordinates` (`Airfoil.py` lines 54-77).  Returns `none` exactly
where Python raises: `min`/`max` of an empty index list (empty input) or
`max` of an empty sliced `y` list. -/
def parseCoordinates (x y : List α) : Option (Coords α) :=
  if x.isEmpty then none else
  let s1 := limitsSurf1 x
  let s2 := limitsSurf2 x
  let x1 := sliceIncl x s1.1 s1.2
  let y1 := sliceIncl y s1.1 s1.2
  let x2 := sliceIncl x s2.1 s2.2
  let y2 := sliceIncl y s2.1 s2.2
  if y1.isEmpty ∨ y2.isEmpty then none else
  let sp := if maxl y1 > maxl y2 then surfacePoints x1 y1 else surfacePoints x2 y2
  let pp := if maxl y1 > maxl y2 then surfacePoints x2 y2 else surfacePoints x1 y1
  let x_s := sp.map Prod.fst
  let y_s := sp.map Prod.snd
  let x_p := pp.map Prod.fst
  let y_p := pp.map Prod.snd
  some { x := x_p.reverse.dropLast ++ x_s
         y := y_p.reverse.dropLast ++ y_s
         x_suction := x_s, y_suction := y_s
         x_pressure := x_p, y_pressure := y_p }

end Parse

section ParseLemmas

variable {α : Type} [LinearOrderedField α]

theorem min2_le_left {β : Type} [LinearOrder β] (a b : β) : min2 a b ≤ a := by
  unfold min2; split
  · exact le_rfl
  · next h => exact le_of_not_le h

theorem min2_le_max2 {β : Type} [LinearOrder β] (a b : β) : min2 a b ≤ max2 a b := by
  unfold min2 max2; split
  · next h => exact h
  · next h => exact le_of_not_le h

theorem min2_eq_or {β : Type} [LinearOrder β] (a b : β) : min2 a b = a ∨ min2 a b = b := by
  unfold min2; split
  · exact Or.inl rfl
  · exact Or.inr rfl

theorem max2_eq_or {β : Type} [LinearOrder β] (a b : β) : max2 a b = a ∨ max2 a b = b := by
  unfold max2; split
  · exact Or.inr rfl
  · exact Or.inl rfl

theorem foldl_min2_eq_or_mem (t : List ℕ) (a : ℕ) :
    t.foldl min2 a = a ∨ t.foldl min2 a ∈ t := by
  induction t generalizing a with
  | nil => exact Or.inl rfl
  | cons h t ih =>
    rw [List.foldl_cons]
    rcases ih (min2 a h) with hc | hc
    · rcases min2_eq_or a h with h2 | h2
      · exact Or.inl (hc.trans h2)
      · exact Or.inr (by rw [hc, h2]; exact List.mem_cons_self _ _)
    · exact Or.inr (List.mem_cons_of_mem _ hc)

theorem minl_mem {l : List ℕ} (h : l ≠ []) : minl l ∈ l := by
  cases l with
  | nil => exact absurd rfl h
  | cons h0 t =>
    simp only [minl]
    rcases foldl_min2_eq_or_mem t h0 with hc | hc
    · rw [hc]; exact List.mem_cons_self _ _
    · exact List.mem_cons_of_mem _ hc

theorem foldl_max2_eq_or_mem {β : Type} [LinearOrder β] (t : List β) (a : β) :
    t.foldl max2 a = a ∨ t.foldl max2 a ∈ t := by
  induction t generalizing a with
  | nil => exact Or.inl rfl
  | cons h t ih =>
    rw [List.foldl_cons]
    rcases ih (max2 a h) with hc | hc
    · rcases max2_eq_or a h with h2 | h2
      · exact Or.inl (hc.trans h2)
      · exact Or.inr (by rw [hc, h2]; exact List.mem_cons_self _ _)
    · exact Or.inr (List.mem_cons_of_mem _ hc)

theorem maxl_mem {β : Type} [LinearOrder β] [Zero β] {l : List β} (h : l ≠ []) :
    maxl l ∈ l := by
  cases l with
  | nil => exact absurd rfl h
  | cons h0 t =>
    simp only [maxl]
    rcases foldl_max2_eq_or_mem t h0 with hc | hc
    · rw [hc]; exact List.mem_cons_self _ _
    · exact List.mem_cons_of_mem _ hc

theorem argsort_perm (x : List α) : List.Perm (argsort x) (List.range x.length) :=
  List.perm_insertionSort _ _

theorem argsort_length (x : List α) : (argsort x).length = x.length := by
  simpa using (argsort_perm x).length_eq

theorem mem_argsort_lt {x : List α} {i : ℕ} (h : i ∈ argsort x) : i < x.length := by
  have := (argsort_perm x).mem_iff.mp h
  simpa using this

theorem argsort_ne_nil {x : List α} (hx : x ≠ []) : argsort x ≠ [] := by
  have hl := argsort_length x
  intro hc
  rw [hc] at hl
  exact hx (List.eq_nil_of_length_eq_zero hl.symm)

theorem argsort_take2_ne_nil {x : List α} (hx : x ≠ []) : (argsort x).take 2 ≠ [] := by
  rw [Ne, List.take_eq_nil_iff]
  push_neg
  exact ⟨by omega, argsort_ne_nil hx⟩

theorem argsort_drop2_ne_nil {x : List α} (hx : x ≠ []) :
    (argsort x).drop ((argsort x).length - 2) ≠ [] := by
  rw [Ne, List.drop_eq_nil_iff_le]
  push_neg
  have hpos : 0 < (argsort x).length := List.length_pos.mpr (argsort_ne_nil hx)
  omega

/-- Both index bounds used for a slice are indices into `x` and the lower
one does not exceed the upper one. -/
theorem limitsSurf1_wf {x : List α} (hx : x ≠ []) :
    (limitsSurf1 x).1 ≤ (limitsSurf1 x).2 ∧ (limitsSurf1 x).1 < x.length := by
  have ha : minl ((argsort x).take 2) ∈ argsort x :=
    List.take_subset _ _ (minl_mem (argsort_take2_ne_nil hx))
  have hb : minl ((argsort x).drop ((argsort x).length - 2)) ∈ argsort x :=
    List.drop_subset _ _ (minl_mem (argsort_drop2_ne_nil hx))
  refine ⟨min2_le_max2 _ _, ?_⟩
  show min2 _ _ < x.length
  rcases min2_eq_or (minl ((argsort x).take 2))
      (minl ((argsort x).drop ((argsort x).length - 2))) with h2 | h2 <;> rw [h2]
  · exact mem_argsort_lt ha
  · exact mem_argsort_lt hb

theorem limitsSurf2_wf {x : List α} (hx : x ≠ []) :
    (limitsSurf2 x).1 ≤ (limitsSurf2 x).2 ∧ (limitsSurf2 x).1 < x.length := by
  have ha : maxl ((argsort x).take 2) ∈ argsort x :=
    List.take_subset _ _ (maxl_mem (argsort_take2_ne_nil hx))
  have hb : maxl ((argsort x).drop ((argsort x).length - 2)) ∈ argsort x :=
    List.drop_subset _ _ (maxl_mem (argsort_drop2_ne_nil hx))
  refine ⟨min2_le_max2 _ _, ?_⟩
  show min2 _ _ < x.length
  rcases min2_eq_or (maxl ((argsort x).take 2))
      (maxl ((argsort x).drop ((argsort x).length - 2))) with h2 | h2 <;> rw [h2]
  · exact mem_argsort_lt ha
  · exact mem_argsort_lt hb

theorem sliceIncl_ne_nil {β : Type} {l : List β} {a b : ℕ}
    (hab : a ≤ b) (ha : a < l.length) : sliceIncl l a b ≠ [] := by
  have hlen : (sliceIncl l a b).length = min (b + 1 - a) (l.length - a) := by
    simp [sliceIncl, List.length_take, List.length_drop]
  intro hc
  rw [hc] at hlen
  simp only [List.length_nil] at hlen
  omega

end ParseLemmas

section ConcreteInputs

/-- The symmetric 4-point diamond of the end-to-end scenario:
`x=[0,1,0.5,0.5]`. -/
def diamondX : List ℚ := [0, 1, mkRat 1 2, mkRat 1 2]

/-- The symmetric 4-point diamond: `y=[0,0,0.1,-0.1]`. -/
def diamondY : List ℚ := [0, 0, mkRat 1 10, mkRat (-1) 10]

/-- A 6-point raw set (not chord-normalized) whose surfaces are
distinguishable: `x=[1,0.5,-1,-1,-0.5,1]`. -/
def skewX : List ℚ := [1, mkRat 1 2, -1, -1, mkRat (-1) 2, 1]

/-- y-values for `skewX`: `y=[0,-0.1,0,0.05,0.2,0.01]`. -/
def skewY : List ℚ := [0, mkRat (-1) 10, 0, mkRat 1 20, mkRat 1 5, mkRat 1 100]

/-- A 5-point input on which the two index ranges overlap:
`x=[1,0.5,0,1.5,2]`. -/
def overlapX : List ℚ := [1, mkRat 1 2, 0, mkRat 3 2, 2]

/-- A 5-point input traced in the conventional TE - LE - TE order:
`x=[1,0.5,0,0.5,1]`. -/
def convX : List ℚ := [1, mkRat 1 2, 0, mkRat 1 2, 1]

end ConcreteInputs

section ClaimC4

/-- C4 (counterexample): on the symmetric 4-point diamond
`x=[0,1,0.5,0.5]`, `y=[0,0,0.1,-0.1]`, the suction surface returned by
`parseCoordinates` does NOT contain `(0.5, 0.1)` and the assembled contour
has length 3, not 5: `sorted(...)[1:-1]` discards both measured midpoints
(each sliced group has exactly two points). -/
theorem C4_counterexample :
    (parseCoordinates diamondX diamondY).map
        (fun c => (decide ((mkRat 1 2, mkRat 1 10) ∈ c.x_suction.zip c.y_suction),
          decide ((mkRat 1 2, mkRat (-1) 10) ∈ c.x_pressure.zip c.y_pressure),
          c.x.length)) =
      some (false, false, 3) := by decide

/-- C4 (amended): on the symmetric 4-point diamond, `parseCoordinates`
discards both measured midpoints as endpoint artifacts and returns the
degenerate suction and pressure surfaces `[(0,0),(1,0)]`, with assembled
contour `[(1,0),(0,0),(1,0)]` of length 3. -/
theorem C4_diamond_parse_result :
    parseCoordinates diamondX diamondY =
      some ⟨[1, 0, 1], [0, 0, 0], [0, 1], [0, 0], [0, 1], [0, 0]⟩ := by decide

end ClaimC4

section ClaimC2

/-- C2 (counterexample): with only 3 points (`x=[0,1,0.5]`,
`y=[0,0,0.1]`) the splitting operation does not fail at all: it returns
normally, and the surfaces it returns are degenerate (reduced to the two
forced end-points). -/
theorem C2_counterexample :
    ([0, 1, mkRat 1 2] : List ℚ).length < 4 ∧
    parseCoordinates ([0, 1, mkRat 1 2] : List ℚ) [0, 0, mkRat 1 10] =
      some ⟨[1, 0, 1], [0, 0, 0], [0, 1], [0, 0], [0, 1], [0, 0]⟩ := by decide

/-- C2 (amended): `parseCoordinates` performs no input validation and
raises no `MalformedGeometry` error: for every nonempty input with
matching lengths — including fewer than 4 points and indistinguishable
surfaces — it succeeds (possibly with degenerate surfaces). -/
theorem C2_no_validation {α : Type} [LinearOrderedField α]
    (x y : List α) (hx : x ≠ []) (hlen : y.length = x.length) :
    (parseCoordinates x y).isSome := by
  have h1 := limitsSurf1_wf (x := x) hx
  have h2 := limitsSurf2_wf (x := x) hx
  have hy1 : sliceIncl y (limitsSurf1 x).1 (limitsSurf1 x).2 ≠ [] :=
    sliceIncl_ne_nil h1.1 (by rw [hlen]; exact h1.2)
  have hy2 : sliceIncl y (limitsSurf2 x).1 (limitsSurf2 x).2 ≠ [] :=
    sliceIncl_ne_nil h2.1 (by rw [hlen]; exact h2.2)
  simp only [parseCoordinates]
  rw [if_neg (by simpa using hx)]
  rw [if_neg (by simpa using And.intro hy1 hy2)]
  split <;> simp

/-- C2 (witness): the amended statement applied to the concrete 3-point
input. -/
theorem C2_no_validation_witness :
    ([0, 1, mkRat 1 2] : List ℚ) ≠ [] ∧
    ([0, 0, mkRat 1 10] : List ℚ).length = ([0, 1, mkRat 1 2] : List ℚ).length ∧
    (parseCoordinates ([0, 1, mkRat 1 2] : List ℚ) [0, 0, mkRat 1 10]).isSome :=
  ⟨by decide, by decide,
    C2_no_validation [0, 1, mkRat 1 2] [0, 0, mkRat 1 10] (by decide) (by decide)⟩

end ClaimC2

section ClaimC5

/-- C5 (counterexample): on the 5-point input `x=[1,0.5,0,1.5,2]` the two
index ranges produced by the splitter are `(1,3)` and `(2,4)`, which share
the original indices 2 and 3 — they are not index-disjoint. -/
theorem C5_counterexample :
    limitsSurf1 overlapX = (1, 3) ∧ limitsSurf2 overlapX = (2, 4) ∧
    ¬ Disjoint (Finset.Icc (1 : ℕ) 3) (Finset.Icc (2 : ℕ) 4) :=
  ⟨by decide, by decide,
    Finset.not_disjoint_iff.mpr ⟨2, by decide, by decide⟩⟩

/-- C5 (amended): the two index ranges are contiguous intervals that
partition the original index space — provided the input follows the
conventional boundary traversal, i.e. the two smallest-x sorted indices
are adjacent positions `m, m+1` strictly inside the sequence and the two
largest-x sorted indices are the first and last positions `0, n-1`.
Without that precondition the ranges can overlap (see the
counterexample). -/
theorem C5_ranges_disjoint_of_convention {α : Type} [LinearOrderedField α]
    (x : List α) (m : ℕ)
    (h1 : minl ((argsort x).take 2) = m)
    (h2 : maxl ((argsort x).take 2) = m + 1)
    (h3 : minl ((argsort x).drop ((argsort x).length - 2)) = 0)
    (h4 : maxl ((argsort x).drop ((argsort x).length - 2)) = x.length - 1)
    (h5 : 0 < m) (h6 : m + 2 ≤ x.length - 1) :
    limitsSurf1 x = (0, m) ∧ limitsSurf2 x = (m + 1, x.length - 1) ∧
    Disjoint (Finset.Icc 0 m) (Finset.Icc (m + 1) (x.length - 1)) ∧
    Finset.Icc 0 m ∪ Finset.Icc (m + 1) (x.length - 1) = Finset.Icc 0 (x.length - 1) := by
  refine ⟨?_, ?_, ?_, ?_⟩
  · simp only [limitsSurf1, h1, h3]
    unfold min2 max2
    rw [if_neg (by omega), if_neg (by omega)]
  · simp only [limitsSurf2, h2, h4]
    unfold min2 max2
    rw [if_pos (by omega), if_pos (by omega)]
  · rw [Finset.disjoint_left]
    intro a ha hb
    rw [Finset.mem_Icc] at ha hb
    omega
  · ext a
    simp only [Finset.mem_union, Finset.mem_Icc]
    omega

/-- C5 (witness): the amended statement applied to the conventionally
ordered input `x=[1,0.5,0,0.5,1]` (argsort `[2,1,3,0,4]`, `m = 1`). -/
theorem C5_ranges_witness :
    minl ((argsort convX).take 2) = 1 ∧
    maxl ((argsort convX).take 2) = 2 ∧
    minl ((argsort convX).drop ((argsort convX).length - 2)) = 0 ∧
    maxl ((argsort convX).drop ((argsort convX).length - 2)) = convX.length - 1 ∧
    limitsSurf1 convX = (0, 1) ∧ limitsSurf2 convX = (2, 4) ∧
    Disjoint (Finset.Icc 0 1) (Finset.Icc 2 (convX.length - 1)) :=
  ⟨by decide, by decide, by decide, by decide,
    (C5_ranges_disjoint_of_convention convX 1 (by decide) (by decide) (by decide)
      (by decide) (by decide) (by decide)).1,
    (C5_ranges_disjoint_of_convention convX 1 (by decide) (by decide) (by decide)
      (by decide) (by decide) (by decide)).2.1,
    (C5_ranges_disjoint_of_convention convX 1 (by decide) (by decide) (by decide)
      (by decide) (by decide) (by decide)).2.2.1⟩

end ClaimC5

section SurfaceLemmas

variable {α : Type} [LinearOrderedField α]

theorem sortPairs_perm (l : List (α × α)) : List.Perm (sortPairs l) l :=
  List.perm_insertionSort _ _

theorem sliceIncl_subset {β : Type} (l : List β) (a b : ℕ) : sliceIncl l a b ⊆ l := by
  intro v hv
  exact List.drop_subset _ _ (List.take_subset _ _ hv)

theorem mem_mid_of_surface {xs ys : List α} {p : α × α}
    (h : p ∈ (sortPairs (xs.zip ys)).tail.dropLast) : p.1 ∈ xs := by
  have h1 : p ∈ sortPairs (xs.zip ys) :=
    List.tail_subset _ (List.dropLast_subset _ h)
  have h2 : p ∈ xs.zip ys := (sortPairs_perm _).mem_iff.mp h1
  exact (List.of_mem_zip (by exact h2)).1

theorem mem_surfacePoints_fst {xs ys : List α} {a : α}
    (h : a ∈ (surfacePoints xs ys).map Prod.fst) : a = 0 ∨ a = 1 ∨ a ∈ xs := by
  rcases List.mem_map.mp h with ⟨p, hp, rfl⟩
  rcases List.mem_cons.mp hp with h0 | hp
  · exact Or.inl (by rw [h0])
  · rcases List.mem_append.mp hp with hm | h1
    · exact Or.inr (Or.inr (mem_mid_of_surface hm))
    · rcases List.mem_singleton.mp h1 with rfl
      exact Or.inr (Or.inl rfl)

theorem surfacePoints_map_fst (xs ys : List α) :
    (surfacePoints xs ys).map Prod.fst =
      0 :: (((sortPairs (xs.zip ys)).tail.dropLast).map Prod.fst ++ [1]) := by
  simp [surfacePoints]

theorem surfacePoints_map_snd (xs ys : List α) :
    (surfacePoints xs ys).map Prod.snd =
      0 :: (((sortPairs (xs.zip ys)).tail.dropLast).map Prod.snd ++ [0]) := by
  simp [surfacePoints]

/-- Shape of the assembled contour (`x_p[::-1][:-1] + x_s`) built from two
surface point lists: closed at `(1,0)` on both ends, and every point's
x-coordinate is `0`, `1`, or a kept measured value. -/
theorem contour_facts (X : List α) (xs1 ys1 xs2 ys2 : List α)
    (hs1 : xs1 ⊆ X) (hs2 : xs2 ⊆ X) (hr : ∀ a ∈ X, 0 ≤ a ∧ a ≤ 1) :
    (((surfacePoints (α := α) xs2 ys2).map Prod.fst).reverse.dropLast ++
        (surfacePoints xs1 ys1).map Prod.fst).head? = some 1 ∧
    (((surfacePoints (α := α) xs2 ys2).map Prod.snd).reverse.dropLast ++
        (surfacePoints xs1 ys1).map Prod.snd).head? = some 0 ∧
    (((surfacePoints (α := α) xs2 ys2).map Prod.fst).reverse.dropLast ++
        (surfacePoints xs1 ys1).map Prod.fst).getLast? = some 1 ∧
    (((surfacePoints (α := α) xs2 ys2).map Prod.snd).reverse.dropLast ++
        (surfacePoints xs1 ys1).map Prod.snd).getLast? = some 0 ∧
    ∀ a ∈ (((surfacePoints (α := α) xs2 ys2).map Prod.fst).reverse.dropLast ++
        (surfacePoints xs1 ys1).map Prod.fst), 0 ≤ a ∧ a ≤ 1 := by
  refine ⟨?_, ?_, ?_, ?_, ?_⟩
  · rw [surfacePoints_map_fst, List.reverse_cons, List.dropLast_concat,
      List.reverse_append]
    rfl
  · rw [surfacePoints_map_snd, List.reverse_cons, List.dropLast_concat,
      List.reverse_append]
    rfl
  · rw [List.getLast?_append_of_ne_nil _ (by simp [surfacePoints_map_fst]),
      surfacePoints_map_fst, ← List.cons_append, List.getLast?_concat]
  · rw [List.getLast?_append_of_ne_nil _ (by simp [surfacePoints_map_snd]),
      surfacePoints_map_snd, ← List.cons_append, List.getLast?_concat]
  · intro a ha
    have hcase : a = 0 ∨ a = 1 ∨ a ∈ X := by
      rcases List.mem_append.mp ha with h | h
      · have h2 : a ∈ (surfacePoints xs2 ys2).map Prod.fst :=
          List.mem_reverse.mp (List.dropLast_subset _ h)
        rcases mem_surfacePoints_fst h2 with h3 | h3 | h3
        · exact Or.inl h3
        · exact Or.inr (Or.inl h3)
        · exact Or.inr (Or.inr (hs2 h3))
      · rcases mem_surfacePoints_fst h with h3 | h3 | h3
        · exact Or.inl h3
        · exact Or.inr (Or.inl h3)
        · exact Or.inr (Or.inr (hs1 h3))
    rcases hcase with rfl | rfl | h3
    · exact ⟨le_rfl, zero_le_one⟩
    · exact ⟨zero_le_one, le_rfl⟩
    · exact hr a h3

end SurfaceLemmas

section ClaimC1

/-- C1 (counterexample): the 6-point input `x=[1,0.5,-1,-1,-0.5,1]`,
`y=[0,-0.1,0,0.05,0.2,0.01]` has at least 4 points and two distinguishable
candidate surfaces (their maximum y values differ), yet the contour
returned by `parseCoordinates` has an interior point with `x = -0.5 < 0`:
the spec's `RawPointSet` does not require `x ∈ [0,1]`, and the code never
normalizes or checks the measured coordinates it keeps. -/
theorem C1_counterexample :
    4 ≤ skewX.length ∧ skewY.length = skewX.length ∧
    maxl (sliceIncl skewY (limitsSurf1 skewX).1 (limitsSurf1 skewX).2) ≠
      maxl (sliceIncl skewY (limitsSurf2 skewX).1 (limitsSurf2 skewX).2) ∧
    (parseCoordinates skewX skewY).map
        (fun c => (c.x.head?, c.x.getLast?,
          decide (∀ a ∈ c.x.tail.dropLast, 0 ≤ a ∧ a ≤ 1))) =
      some (some 1, some 1, false) := by decide

/-- C1 (amended): for every input with at least 4 points, matching
lengths, and all x-coordinates already inside `[0,1]` (as chord-normalized
airfoil files provide), the parsed contour is a closed loop whose first
and last points equal `(1.0, 0.0)` and all of whose points (interior ones
included) have `0 ≤ x ≤ 1`. -/
theorem C1_contour_closed_in_unit_range {α : Type} [LinearOrderedField α]
    (x y : List α) (c : Coords α)
    (h4 : 4 ≤ x.length) (hlen : y.length = x.length)
    (hrange : ∀ a ∈ x, 0 ≤ a ∧ a ≤ 1)
    (hc : parseCoordinates x y = some c) :
    c.x.head? = some 1 ∧ c.y.head? = some 0 ∧
    c.x.getLast? = some 1 ∧ c.y.getLast? = some 0 ∧
    ∀ a ∈ c.x, 0 ≤ a ∧ a ≤ 1 := by
  simp only [parseCoordinates] at hc
  split at hc
  · exact absurd hc (by simp)
  split at hc
  · exact absurd hc (by simp)
  rcases Option.some.inj hc with rfl
  by_cases hbr : maxl (sliceIncl y (limitsSurf1 x).1 (limitsSurf1 x).2) >
      maxl (sliceIncl y (limitsSurf2 x).1 (limitsSurf2 x).2)
  · simp only [if_pos hbr]
    exact contour_facts x _ _ _ _ (sliceIncl_subset x _ _) (sliceIncl_subset x _ _) hrange
  · simp only [if_neg hbr]
    exact contour_facts x _ _ _ _ (sliceIncl_subset x _ _) (sliceIncl_subset x _ _) hrange

/-- C1 (witness): the amended statement applied to the 4-point diamond. -/
theorem C1_contour_witness :
    4 ≤ diamondX.length ∧ diamondY.length = diamondX.length ∧
    (∀ a ∈ diamondX, 0 ≤ a ∧ a ≤ 1) ∧
    (([1, 0, 1] : List ℚ).head? = some 1 ∧ ([0, 0, 0] : List ℚ).head? = some 0 ∧
      ([1, 0, 1] : List ℚ).getLast? = some 1 ∧ ([0, 0, 0] : List ℚ).getLast? = some 0 ∧
      ∀ a ∈ ([1, 0, 1] : List ℚ), 0 ≤ a ∧ a ≤ 1) :=
  ⟨by decide, by decide, by decide,
    C1_contour_closed_in_unit_range diamondX diamondY
      ⟨[1, 0, 1], [0, 0, 0], [0, 1], [0, 0], [0, 1], [0, 0]⟩
      (by decide) (by decide) (by decide) (by decide)⟩

end ClaimC1

section SortOrder

variable {α : Type} [LinearOrderedField α]

instance : IsTrans (α × α) lexLe where
  trans p q r hpq hqr := by
    rcases hpq with h | ⟨he, hle⟩ <;> rcases hqr with h2 | ⟨he2, hle2⟩
    · exact Or.inl (h.trans h2)
    · exact Or.inl (lt_of_lt_of_eq h he2)
    · exact Or.inl (lt_of_eq_of_lt he h2)
    · exact Or.inr ⟨he.trans he2, hle.trans hle2⟩

instance : IsTotal (α × α) lexLe where
  total p q := by
    rcases lt_trichotomy p.1 q.1 with h | h | h
    · exact Or.inl (Or.inl h)
    · rcases le_total p.2 q.2 with h2 | h2
      · exact Or.inl (Or.inr ⟨h, h2⟩)
      · exact Or.inr (Or.inr ⟨h.symm, h2⟩)
    · exact Or.inr (Or.inl h)

theorem sortPairs_sorted (l : List (α × α)) : (sortPairs l).Pairwise lexLe :=
  List.sorted_insertionSort _ _

theorem pairwise_fst_zip {β : Type} {R : α → α → Prop} :
    ∀ (xs : List α) (ys : List β), xs.Pairwise R →
      (xs.zip ys).Pairwise (fun p q => R p.1 q.1)
  | [], _, _ => by simp
  | _ :: _, [], _ => by simp
  | a :: xs, b :: ys, h => by
    rw [List.zip_cons_cons]
    rcases List.pairwise_cons.mp h with ⟨ha, ht⟩
    refine List.pairwise_cons.mpr ⟨?_, pairwise_fst_zip xs ys ht⟩
    intro q hq
    exact ha q.1 (List.of_mem_zip hq).1

/-- If no two points share an x-value, Python's lexicographic sort makes
the x-components strictly increasing. -/
theorem sortPairs_pairwise_fst_lt {l : List (α × α)}
    (hnd : l.Pairwise (fun p q => p.1 ≠ q.1)) :
    (sortPairs l).Pairwise (fun p q => p.1 < q.1) := by
  have hsort := sortPairs_sorted l
  have hne : (sortPairs l).Pairwise (fun p q => p.1 ≠ q.1) :=
    ((sortPairs_perm l).pairwise_iff (fun h => h.symm)).mpr hnd
  refine (hsort.and hne).imp ?_
  intro p q h
  rcases h with ⟨hle | ⟨he, _⟩, hne2⟩
  · exact hle
  · exact absurd he hne2

/-- Every point kept by the `[1:-1]` trim lies strictly between the
extreme measured x-values, hence strictly inside `(0,1)` when all inputs
are in `[0,1]` with pairwise distinct x. -/
theorem mid_bounds {xs : List α} (ys : List α)
    (hr : ∀ a ∈ xs, 0 ≤ a ∧ a ≤ 1) (hnd : xs.Pairwise (· ≠ ·)) :
    ∀ p ∈ (sortPairs (xs.zip ys)).tail.dropLast, 0 < p.1 ∧ p.1 < 1 := by
  have hstrict := sortPairs_pairwise_fst_lt (pairwise_fst_zip xs ys hnd)
  intro p hp
  cases hL : sortPairs (xs.zip ys) with
  | nil => rw [hL] at hp; simp at hp
  | cons h0 t =>
    rw [hL] at hp hstrict
    simp only [List.tail_cons] at hp
    rcases List.pairwise_cons.mp hstrict with ⟨h0lt, htp⟩
    constructor
    · have hpt : p ∈ t := List.dropLast_subset _ hp
      have h0mem : h0 ∈ xs.zip ys := by
        apply (sortPairs_perm _).mem_iff.mp
        rw [hL]
        exact List.mem_cons_self _ _
      have h01 : 0 ≤ h0.1 := (hr _ (List.of_mem_zip h0mem).1).1
      exact lt_of_le_of_lt h01 (h0lt p hpt)
    · have htne : t ≠ [] := by
        intro hc
        rw [hc] at hp
        simp at hp
      have hlast_mem : t.getLast htne ∈ xs.zip ys := by
        apply (sortPairs_perm _).mem_iff.mp
        rw [hL]
        exact List.mem_cons_of_mem _ (List.getLast_mem htne)
      have hlast_le : (t.getLast htne).1 ≤ 1 :=
        (hr _ (List.of_mem_zip hlast_mem).1).2
      have hplast : p.1 < (t.getLast htne).1 := by
        have hpw := htp
        rw [← List.dropLast_append_getLast htne] at hpw
        rcases List.pairwise_append.mp hpw with ⟨_, _, hx⟩
        exact hx p hp _ (List.mem_singleton_self _)
      exact lt_of_lt_of_le hplast hlast_le

/-- The x-components of a normalized surface are strictly increasing when
the raw group has pairwise distinct x-values inside `[0,1]`. -/
theorem surface_fst_chain {xs ys : List α}
    (hr : ∀ a ∈ xs, 0 ≤ a ∧ a ≤ 1) (hnd : xs.Pairwise (· ≠ ·)) :
    List.Chain' (· < ·) ((surfacePoints xs ys).map Prod.fst) := by
  rw [surfacePoints_map_fst, List.chain'_iff_pairwise]
  have hmid := mid_bounds ys hr hnd
  have hstrict := sortPairs_pairwise_fst_lt (pairwise_fst_zip xs ys hnd)
  have hsub : List.Sublist ((sortPairs (xs.zip ys)).tail.dropLast)
      (sortPairs (xs.zip ys)) :=
    (List.dropLast_sublist _).trans (List.tail_sublist _)
  have hmidpw := List.Pairwise.sublist hsub hstrict
  refine List.pairwise_cons.mpr ⟨?_, ?_⟩
  · intro b hb
    rcases List.mem_append.mp hb with h | h
    · rcases List.mem_map.mp h with ⟨p, hp, rfl⟩
      exact (hmid p hp).1
    · rcases List.mem_singleton.mp h with rfl
      exact zero_lt_one
  · rw [List.pairwise_append]
    refine ⟨List.pairwise_map.mpr hmidpw, List.pairwise_singleton _ _, ?_⟩
    intro a ha b hb
    rcases List.mem_map.mp ha with ⟨p, hp, rfl⟩
    rcases List.mem_singleton.mp hb with rfl
    exact (hmid p hp).2

theorem surface_fst_head (xs ys : List α) :
    ((surfacePoints xs ys).map Prod.fst).head? = some 0 := by
  rw [surfacePoints_map_fst]
  rfl

theorem surface_fst_last (xs ys : List α) :
    ((surfacePoints xs ys).map Prod.fst).getLast? = some 1 := by
  rw [surfacePoints_map_fst, ← List.cons_append, List.getLast?_concat]

theorem surface_snd_head (xs ys : List α) :
    ((surfacePoints xs ys).map Prod.snd).head? = some 0 := by
  rw [surfacePoints_map_snd]
  rfl

theorem surface_snd_last (xs ys : List α) :
    ((surfacePoints xs ys).map Prod.snd).getLast? = some 0 := by
  rw [surfacePoints_map_snd, ← List.cons_append, List.getLast?_concat]

theorem sliceIncl_sublist {β : Type} (l : List β) (a b : ℕ) :
    List.Sublist (sliceIncl l a b) l :=
  (List.take_sublist _ _).trans (List.drop_sublist _ _)

end SortOrder

section ClaimC3

/-- C3 (counterexample): on the 6-point input `x=[1,0.5,-1,-1,-0.5,1]`
(which repeats the x-value `-1` and is not chord-normalized), the suction
surface produced by `parseCoordinates` is `[(0,0),(-0.5,0.2),(1,0)]`,
whose x-coordinates `[0,-0.5,1]` are not strictly increasing. -/
theorem C3_counterexample :
    (parseCoordinates skewX skewY).map Coords.x_suction =
      some [0, mkRat (-1) 2, 1] ∧
    ¬ List.Chain' (· < ·) ([0, mkRat (-1) 2, 1] : List ℚ) :=
  ⟨by decide, fun h => absurd (List.chain'_cons.mp h).1 (by decide)⟩

/-- C3 (amended): for every input with at least 4 points, matching
lengths, all x-values inside `[0,1]`, and pairwise distinct x-values, both
surfaces produced by `parseCoordinates` have strictly increasing
x-coordinates, first point exactly `(0,0)` and last point exactly
`(1,0)`. -/
theorem C3_surfaces_strictly_increasing {α : Type} [LinearOrderedField α]
    (x y : List α) (c : Coords α)
    (h4 : 4 ≤ x.length) (hlen : y.length = x.length)
    (hrange : ∀ a ∈ x, 0 ≤ a ∧ a ≤ 1)
    (hnd : x.Pairwise (· ≠ ·))
    (hc : parseCoordinates x y = some c) :
    (List.Chain' (· < ·) c.x_suction ∧
      c.x_suction.head? = some 0 ∧ c.x_suction.getLast? = some 1 ∧
      c.y_suction.head? = some 0 ∧ c.y_suction.getLast? = some 0) ∧
    (List.Chain' (· < ·) c.x_pressure ∧
      c.x_pressure.head? = some 0 ∧ c.x_pressure.getLast? = some 1 ∧
      c.y_pressure.head? = some 0 ∧ c.y_pressure.getLast? = some 0) := by
  have hgroup : ∀ a b : ℕ, (∀ v ∈ sliceIncl x a b, 0 ≤ v ∧ v ≤ 1) ∧
      (sliceIncl x a b).Pairwise (· ≠ ·) :=
    fun a b => ⟨fun v hv => hrange v (sliceIncl_subset x a b hv),
      List.Pairwise.sublist (sliceIncl_sublist x a b) hnd⟩
  simp only [parseCoordinates] at hc
  split at hc
  · exact absurd hc (by simp)
  split at hc
  · exact absurd hc (by simp)
  rcases Option.some.inj hc with rfl
  by_cases hbr : maxl (sliceIncl y (limitsSurf1 x).1 (limitsSurf1 x).2) >
      maxl (sliceIncl y (limitsSurf2 x).1 (limitsSurf2 x).2)
  · simp only [if_pos hbr]
    exact ⟨⟨surface_fst_chain (hgroup _ _).1 (hgroup _ _).2,
        surface_fst_head _ _, surface_fst_last _ _,
        surface_snd_head _ _, surface_snd_last _ _⟩,
      ⟨surface_fst_chain (hgroup _ _).1 (hgroup _ _).2,
        surface_fst_head _ _, surface_fst_last _ _,
        surface_snd_head _ _, surface_snd_last _ _⟩⟩
  · simp only [if_neg hbr]
    exact ⟨⟨surface_fst_chain (hgroup _ _).1 (hgroup _ _).2,
        surface_fst_head _ _, surface_fst_last _ _,
        surface_snd_head _ _, surface_snd_last _ _⟩,
      ⟨surface_fst_chain (hgroup _ _).1 (hgroup _ _).2,
        surface_fst_head _ _, surface_fst_last _ _,
        surface_snd_head _ _, surface_snd_last _ _⟩⟩

/-- C3 (witness): the amended statement applied to the 4-point input
`x=[0,1,0.5,0.25]`, `y=[0,0,0.1,-0.1]` with pairwise distinct x in
`[0,1]`. -/
theorem C3_surfaces_witness :
    4 ≤ ([0, 1, mkRat 1 2, mkRat 1 4] : List ℚ).length ∧
    (∀ a ∈ ([0, 1, mkRat 1 2, mkRat 1 4] : List ℚ), 0 ≤ a ∧ a ≤ 1) ∧
    ([0, 1, mkRat 1 2, mkRat 1 4] : List ℚ).Pairwise (· ≠ ·) ∧
    ((List.Chain' (· < ·) ([0, 1] : List ℚ) ∧
      ([0, 1] : List ℚ).head? = some 0 ∧ ([0, 1] : List ℚ).getLast? = some 1 ∧
      ([0, 0] : List ℚ).head? = some 0 ∧ ([0, 0] : List ℚ).getLast? = some 0) ∧
    (List.Chain' (· < ·) ([0, 1] : List ℚ) ∧
      ([0, 1] : List ℚ).head? = some 0 ∧ ([0, 1] : List ℚ).getLast? = some 1 ∧
      ([0, 0] : List ℚ).head? = some 0 ∧ ([0, 0] : List ℚ).getLast? = some 0)) :=
  ⟨by decide, by decide, by decide,
    C3_surfaces_strictly_increasing [0, 1, mkRat 1 2, mkRat 1 4]
      [0, 0, mkRat 1 10, mkRat (-1) 10]
      ⟨[1, 0, 1], [0, 0, 0], [0, 1], [0, 0], [0, 1], [0, 0]⟩
      (by decide) (by decide) (by decide) (by decide) (by decide)⟩

end ClaimC3

section Spacing

/-- `n_pnls = int(n/2) - 1` (`Airfoil.py` line 90); the guard `2 ≤ n` is
handled at the call site, mirroring the `ValueError` that
`np.repeat(rule, -1)` raises for `n < 2`. -/
def nPanels (n : ℕ) : ℕ := n / 2 - 1

/-- `sum_series = np.sum(np.repeat(pnl_rule, n_pnls)**np.linspace(0, n_pnls - 1,
n_pnls))` (`Airfoil.py` line 91): the sum `r^0 + ... + r^(p-1)`. -/
noncomputable def sumSeries (r : ℝ) (p : ℕ) : ℝ := ∑ i ∈ Finset.range p, r ^ i

/-- Interval lengths of the chord scheme:
`delta = delta_max*pnl_rule**(n_pnls - np.linspace(1, n_pnls, n_pnls))` with
`delta_max = 1 / sum_series` (`Airfoil.py` lines 93-94); the `i`-th entry
(0-based) has exponent `p - 1 - i`. -/
noncomputable def chordDelta (r : ℝ) (p : ℕ) (i : ℕ) : ℝ :=
  (1 / sumSeries r p) * r ^ (p - 1 - i)

/-- `x = np.insert(np.cumsum(delta), 0, 0)` (`Airfoil.py` line 95): the
partial sums of the chord intervals, prefixed with `0`. -/
noncomputable def chordSamples (r : ℝ) (p : ℕ) : List ℝ :=
  (List.range (p + 1)).map (fun j => ∑ i ∈ Finset.range j, chordDelta r p i)

/-- Interval lengths of the circle scheme:
`delta = delta_max*pnl_rule**(np.linspace(1, n_pnls, n_pnls) - 1)` with
`delta_max = math.pi / sum_series` (`Airfoil.py` lines 97-98). -/
noncomputable def circleDelta (r : ℝ) (p : ℕ) (i : ℕ) : ℝ :=
  (Real.pi / sumSeries r p) * r ^ i

/-- Cumulative angles `np.insert(np.cumsum(delta), 0, 0)` of the circle
scheme. -/
noncomputable def circleTheta (r : ℝ) (p : ℕ) (j : ℕ) : ℝ :=
  ∑ i ∈ Finset.range j, circleDelta r p i

/-- `x = np.flip(0.5 + 0.5*np.cos(np.insert(np.cumsum(delta), 0, 0)), axis=0)`
(`Airfoil.py` line 99). -/
noncomputable def circleSamples (r : ℝ) (p : ℕ) : List ℝ :=
  ((List.range (p + 1)).map
    (fun j => 1 / 2 + 1 / 2 * Real.cos (circleTheta r p j))).reverse

/-- The sampled x-coordinates of `splineInterpolation`
(`Airfoil.py` lines 90-99): the `chord` scheme when `pnl_scheme == "chord"`,
otherwise the circle scheme. -/
noncomputable def spacingSamples (n : ℕ) (sch : String) (r : ℝ) : List ℝ :=
  if sch = "chord" then chordSamples r (nPanels n) else circleSamples r (nPanels n)

theorem sumSeries_pos {r : ℝ} {p : ℕ} (hr : 0 < r) (hp : 1 ≤ p) :
    0 < sumSeries r p :=
  Finset.sum_pos (fun i _ => pow_pos hr i) (Finset.nonempty_range_iff.mpr (by omega))

theorem chordDelta_pos {r : ℝ} {p : ℕ} (hr : 0 < r) (hp : 1 ≤ p) (i : ℕ) :
    0 < chordDelta r p i :=
  mul_pos (one_div_pos.mpr (sumSeries_pos hr hp)) (pow_pos hr _)

theorem sum_chordDelta {r : ℝ} {p : ℕ} (hr : 0 < r) (hp : 1 ≤ p) :
    ∑ i ∈ Finset.range p, chordDelta r p i = 1 := by
  have hS : sumSeries r p ≠ 0 := ne_of_gt (sumSeries_pos hr hp)
  calc ∑ i ∈ Finset.range p, chordDelta r p i
      = (1 / sumSeries r p) * ∑ i ∈ Finset.range p, r ^ (p - 1 - i) := by
        rw [Finset.mul_sum]
        rfl
    _ = (1 / sumSeries r p) * ∑ i ∈ Finset.range p, r ^ i := by
        rw [Finset.sum_range_reflect (fun i => r ^ i) p]
    _ = (1 / sumSeries r p) * sumSeries r p := rfl
    _ = 1 := one_div_mul_cancel hS

theorem circleDelta_pos {r : ℝ} {p : ℕ} (hr : 0 < r) (hp : 1 ≤ p) (i : ℕ) :
    0 < circleDelta r p i :=
  mul_pos (div_pos Real.pi_pos (sumSeries_pos hr hp)) (pow_pos hr _)

theorem sum_circleDelta {r : ℝ} {p : ℕ} (hr : 0 < r) (hp : 1 ≤ p) :
    ∑ i ∈ Finset.range p, circleDelta r p i = Real.pi := by
  have hS : sumSeries r p ≠ 0 := ne_of_gt (sumSeries_pos hr hp)
  calc ∑ i ∈ Finset.range p, circleDelta r p i
      = (Real.pi / sumSeries r p) * ∑ i ∈ Finset.range p, r ^ i := by
        rw [Finset.mul_sum]
        rfl
    _ = (Real.pi / sumSeries r p) * sumSeries r p := rfl
    _ = Real.pi := div_mul_cancel₀ _ hS

theorem circleTheta_mono {r : ℝ} {p : ℕ} (hr : 0 < r) (hp : 1 ≤ p) {i j : ℕ}
    (hij : i < j) : circleTheta r p i < circleTheta r p j := by
  unfold circleTheta
  exact Finset.sum_lt_sum_of_subset (Finset.range_subset.mpr hij.le)
    (Finset.mem_range.mpr hij) (by simp) (circleDelta_pos hr hp i)
    (fun k _ _ => le_of_lt (circleDelta_pos hr hp k))

theorem circleTheta_nonneg {r : ℝ} {p : ℕ} (hr : 0 < r) (hp : 1 ≤ p) (j : ℕ) :
    0 ≤ circleTheta r p j :=
  Finset.sum_nonneg (fun i _ => le_of_lt (circleDelta_pos hr hp i))

theorem circleTheta_le_pi {r : ℝ} {p : ℕ} (hr : 0 < r) (hp : 1 ≤ p) {j : ℕ}
    (hj : j ≤ p) : circleTheta r p j ≤ Real.pi := by
  rw [← sum_circleDelta hr hp]
  exact Finset.sum_le_sum_of_subset_of_nonneg (Finset.range_subset.mpr hj)
    (fun i _ _ => le_of_lt (circleDelta_pos hr hp i))

theorem chordSamples_spec {r : ℝ} {p : ℕ} (hr : 0 < r) (hp : 1 ≤ p) :
    (chordSamples r p).length = p + 1 ∧ List.Chain' (· < ·) (chordSamples r p) ∧
    ∀ v ∈ chordSamples r p, 0 ≤ v ∧ v ≤ 1 := by
  refine ⟨by simp [chordSamples], ?_, ?_⟩
  · unfold chordSamples
    rw [List.chain'_map]
    refine (List.chain'_range_succ _ p).mpr ?_
    intro m _
    rw [Finset.sum_range_succ]
    have := chordDelta_pos hr hp m
    linarith
  · intro v hv
    rcases List.mem_map.mp hv with ⟨j, hj, rfl⟩
    rw [List.mem_range] at hj
    constructor
    · exact Finset.sum_nonneg (fun i _ => le_of_lt (chordDelta_pos hr hp i))
    · rw [← sum_chordDelta hr hp]
      exact Finset.sum_le_sum_of_subset_of_nonneg
        (Finset.range_subset.mpr (by omega))
        (fun i _ _ => le_of_lt (chordDelta_pos hr hp i))

theorem circleSamples_spec {r : ℝ} {p : ℕ} (hr : 0 < r) (hp : 1 ≤ p) :
    (circleSamples r p).length = p + 1 ∧ List.Chain' (· < ·) (circleSamples r p) ∧
    ∀ v ∈ circleSamples r p, 0 ≤ v ∧ v ≤ 1 := by
  have hmem : ∀ j ≤ p, Real.cos (circleTheta r p j) ∈ Set.Icc (-1 : ℝ) 1 :=
    fun j _ => ⟨Real.neg_one_le_cos _, Real.cos_le_one _⟩
  refine ⟨by simp [circleSamples], ?_, ?_⟩
  · unfold circleSamples
    rw [List.chain'_reverse, List.chain'_map]
    refine (List.chain'_range_succ _ p).mpr ?_
    intro m hm
    have hcos : Real.cos (circleTheta r p (m + 1)) < Real.cos (circleTheta r p m) := by
      apply Real.strictAntiOn_cos
      · exact Set.mem_Icc.mpr ⟨circleTheta_nonneg hr hp _, circleTheta_le_pi hr hp (by omega)⟩
      · exact Set.mem_Icc.mpr ⟨circleTheta_nonneg hr hp _, circleTheta_le_pi hr hp (by omega)⟩
      · exact circleTheta_mono hr hp (by omega)
    show (1 : ℝ) / 2 + 1 / 2 * Real.cos (circleTheta r p (m + 1)) <
      1 / 2 + 1 / 2 * Real.cos (circleTheta r p m)
    linarith
  · intro v hv
    rw [circleSamples, List.mem_reverse] at hv
    rcases List.mem_map.mp hv with ⟨j, hj, rfl⟩
    have h1 := Real.neg_one_le_cos (circleTheta r p j)
    have h2 := Real.cos_le_one (circleTheta r p j)
    constructor <;> [linarith; linarith]

/-- C6: for every `n ≥ 4`, `rule > 0` and scheme in `{chord, circle}`, the
spacing computation of `splineInterpolation` produces a strictly ascending
sequence of x-values in `[0,1]` of length exactly `n / 2`. -/
theorem C6_spacing_contract (n : ℕ) (sch : String) (r : ℝ)
    (h4 : 4 ≤ n) (hr : 0 < r) (hsch : sch = "chord" ∨ sch = "circle") :
    (spacingSamples n sch r).length = n / 2 ∧
    List.Chain' (· < ·) (spacingSamples n sch r) ∧
    ∀ v ∈ spacingSamples n sch r, 0 ≤ v ∧ v ≤ 1 := by
  have hp : 1 ≤ nPanels n := by
    unfold nPanels
    omega
  have hlen : nPanels n + 1 = n / 2 := by
    unfold nPanels
    omega
  rcases hsch with rfl | rfl
  · rw [spacingSamples, if_pos rfl]
    rcases chordSamples_spec (p := nPanels n) hr hp with ⟨h1, h2, h3⟩
    exact ⟨by rw [h1, hlen], h2, h3⟩
  · rw [spacingSamples, if_neg (by decide)]
    rcases circleSamples_spec (p := nPanels n) hr hp with ⟨h1, h2, h3⟩
    exact ⟨by rw [h1, hlen], h2, h3⟩

/-- C6 (witness): the contract instantiated at `n = 10`,
`scheme = "chord"`, `rule = 9/10`. -/
theorem C6_spacing_witness :
    4 ≤ 10 ∧ (0 : ℝ) < 9 / 10 ∧
    ((spacingSamples 10 "chord" (9 / 10)).length = 5 ∧
      List.Chain' (· < ·) (spacingSamples 10 "chord" (9 / 10)) ∧
      ∀ v ∈ spacingSamples 10 "chord" (9 / 10), 0 ≤ v ∧ v ≤ 1) :=
  ⟨by norm_num, by norm_num,
    C6_spacing_contract 10 "chord" (9 / 10) (by norm_num) (by norm_num)
      (Or.inl rfl)⟩

end Spacing

section Spline

/-- Knot spacing `h_i = x_{i+1} - x_i` of a spline knot list. -/
noncomputable def splineH (xs : List ℝ) (i : ℕ) : ℝ :=
  xs.getD (i + 1) 0 - xs.getD i 0

/-- Divided difference `(y_{i+1} - y_i) / h_i`. -/
noncomputable def splineDelta (xs ys : List ℝ) (i : ℕ) : ℝ :=
  (ys.getD (i + 1) 0 - ys.getD i 0) / splineH xs i

/-- Modelled from the spec: the tridiagonal system solved by the external
cubic-spline engine (`scipy.interpolate.CubicSpline`, `bc_type="clamped"`,
not part of this repository) for the knot slopes `s_i`; the first and last
rows pin the end slopes to the clamped value `0`, the interior rows are the
C2-continuity equations. -/
noncomputable def splineSlopeMatrix (xs : List ℝ) :
    Matrix (Fin xs.length) (Fin xs.length) ℝ := fun i j =>
  if i.val = 0 then (if j.val = 0 then 1 else 0)
  else if i.val = xs.length - 1 then (if j.val = xs.length - 1 then 1 else 0)
  else if j.val = i.val - 1 then splineH xs i.val
  else if j.val = i.val then 2 * (splineH xs (i.val - 1) + splineH xs i.val)
  else if j.val = i.val + 1 then splineH xs (i.val - 1)
  else 0

/-- Modelled from the spec: right-hand side of the clamped slope system
(zero at both clamped ends). -/
noncomputable def splineRhs (xs ys : List ℝ) : Fin xs.length → ℝ := fun i =>
  if i.val = 0 ∨ i.val = xs.length - 1 then 0
  else 3 * (splineH xs i.val * splineDelta xs ys (i.val - 1) +
    splineH xs (i.val - 1) * splineDelta xs ys i.val)

/-- Modelled from the spec: the knot slopes of the clamped cubic spline,
obtained by solving the tridiagonal system. -/
noncomputable def clampedSlopes (xs ys : List ℝ) : ℕ → ℝ := fun i =>
  if h : i < xs.length then
    Matrix.mulVec (splineSlopeMatrix xs)⁻¹ (splineRhs xs ys) ⟨i, h⟩
  else 0

/-- Modelled from the spec: the cubic piece on interval `j` in the
coefficient form used by the engine (`c3 = y_j`, `c2 = s_j`, then the two
coefficients determined by matching `y_{j+1}` and `s_{j+1}`). -/
noncomputable def splinePieceEval (xs ys : List ℝ) (s : ℕ → ℝ) (j : ℕ) (t : ℝ) : ℝ :=
  let xj := xs.getD j 0
  let yj := ys.getD j 0
  let h := splineH xs j
  let d := splineDelta xs ys j
  let u := t - xj
  yj + s j * u + ((3 * d - 2 * s j - s (j + 1)) / h) * u ^ 2 +
    ((s j + s (j + 1) - 2 * d) / h ^ 2) * u ^ 3

/-- Modelled from the spec: interval lookup of the piecewise evaluator — the
last knot interval whose left end does not exceed `t`, clamped to the valid
piece indices (evaluation below the first knot or above the last one
extrapolates with the boundary piece). -/
noncomputable def splineIdx (xs : List ℝ) (t : ℝ) : ℕ :=
  min (xs.length - 2) (xs.countP (fun z => decide (z ≤ t)) - 1)

/-- Modelled from the spec: evaluation of the fitted clamped cubic spline
(`f = sp.CubicSpline(x, y, bc_type="clamped"); f(t)`). -/
noncomputable def splineEval (xs ys : List ℝ) (t : ℝ) : ℝ :=
  splinePieceEval xs ys (clampedSlopes xs ys) (splineIdx xs t) t

/-- The conditions under which the spline engine accepts the two surfaces
(`scipy` raises `ValueError` otherwise): strictly increasing x with at
least two knots, and y of matching length. -/
def validSurfaces (c : Coords ℝ) : Prop :=
  List.Chain' (· < ·) c.x_suction ∧ c.y_suction.length = c.x_suction.length ∧
  2 ≤ c.x_suction.length ∧
  List.Chain' (· < ·) c.x_pressure ∧ c.y_pressure.length = c.x_pressure.length ∧
  2 ≤ c.x_pressure.length

noncomputable instance (c : Coords ℝ) : Decidable (validSurfaces c) := by
  unfold validSurfaces
  infer_instance

/-- `splineInterpolation` (`Airfoil.py` lines 88-115): spacing samples, one
spline per surface evaluated at the shared samples, and the same assembly
rule as the parser.  `none` mirrors the Python exceptions: `np.repeat(rule,
-1)` for `n < 2`, and the spline engine's rejection of invalid surfaces. -/
noncomputable def splineInterpolation (c : Coords ℝ) (n : ℕ) (sch : String)
    (r : ℝ) : Option (Coords ℝ) :=
  if n < 2 then none else
  if ¬ validSurfaces c then none else
  let xs := spacingSamples n sch r
  let ys := xs.map (splineEval c.x_suction c.y_suction)
  let yp := xs.map (splineEval c.x_pressure c.y_pressure)
  some { x := xs.reverse.dropLast ++ xs
         y := yp.reverse.dropLast ++ ys
         x_suction := xs, y_suction := ys
         x_pressure := xs, y_pressure := yp }

theorem splineInterpolation_isSome {c : Coords ℝ} {n : ℕ} {sch : String} {r : ℝ}
    (hn : 2 ≤ n) (hv : validSurfaces c) :
    (splineInterpolation c n sch r).isSome := by
  unfold splineInterpolation
  rw [if_neg (by omega), if_neg (not_not_intro hv)]
  rfl

/-- The degenerate parsed coordinates of the diamond input, over `ℝ`. -/
noncomputable def flatR : Coords ℝ := ⟨[1, 0, 1], [0, 0, 0], [0, 1], [0, 0], [0, 1], [0, 0]⟩

theorem flatR_valid : validSurfaces flatR := by
  refine ⟨?_, by simp [flatR], by simp [flatR], ?_, by simp [flatR], by simp [flatR]⟩ <;>
    simp [flatR, List.chain'_cons, List.chain'_singleton] <;> norm_num

end Spline

section ClaimC7

/-- C7 (counterexample): `splineInterpolation` raises no
`InvalidSpacingParameters` error: it succeeds with an unknown scheme
string, with `rule = -1 ≤ 0`, and with `n = 2 < 4`. -/
theorem C7_counterexample :
    (splineInterpolation flatR 10 "banana" (9 / 10)).isSome ∧
    (splineInterpolation flatR 10 "chord" (-1)).isSome ∧
    (splineInterpolation flatR 2 "chord" (9 / 10)).isSome :=
  ⟨splineInterpolation_isSome (by omega) flatR_valid,
    splineInterpolation_isSome (by omega) flatR_valid,
    splineInterpolation_isSome (by omega) flatR_valid⟩

/-- C7 (amended): the spacing computation performs no parameter validation
at all.  `splineInterpolation` succeeds exactly when `n ≥ 2` (for `n ≤ 1`
Python's `np.repeat(rule, -1)` raises) and the surfaces are acceptable to
the spline engine — independently of the sign of `rule` and of the scheme
string (any scheme other than `"chord"` silently selects the circle
branch). -/
theorem C7_no_validation (c : Coords ℝ) (n : ℕ) (sch : String) (r : ℝ) :
    (splineInterpolation c n sch r).isSome ↔ (2 ≤ n ∧ validSurfaces c) := by
  unfold splineInterpolation
  by_cases h1 : n < 2
  · rw [if_pos h1]
    simp
    omega
  · rw [if_neg h1]
    by_cases h2 : validSurfaces c
    · rw [if_neg (not_not_intro h2)]
      simp [h2]
      omega
    · rw [if_pos h2]
      simp [h2]

end ClaimC7

section ClaimC10

/-- Definition following the claim's own words (spec §4.2, circle scheme),
for comparison with the code's `else` branch: angular intervals
proportional to `rule^(i-1)`, normalized to sum to `π`; the cumulative
angles (prefixed with 0) are mapped through `x = 0.5 + 0.5·cos θ` and the
result is reversed to ascending order. -/
noncomputable def circleSpecSamples (n : ℕ) (r : ℝ) : List ℝ :=
  ((List.range (n / 2 - 1 + 1)).map (fun j => 1 / 2 + 1 / 2 *
    Real.cos (∑ i ∈ Finset.range j,
      Real.pi * r ^ i / (∑ k ∈ Finset.range (n / 2 - 1), r ^ k)))).reverse

theorem spacingSamples_of_ne_chord (n : ℕ) (sch : String) (r : ℝ)
    (hsch : sch ≠ "chord") :
    spacingSamples n sch r = circleSpecSamples n r := by
  rw [spacingSamples, if_neg hsch]
  unfold circleSamples circleSpecSamples circleTheta circleDelta nPanels sumSeries
  congr 1
  apply List.map_congr_left
  intro j _
  congr 1
  congr 1
  congr 1
  apply Finset.sum_congr rfl
  intro i _
  rw [div_mul_eq_mul_div]

/-- C10: every scheme selector other than `"chord"` (misspelled or
arbitrary) raises no error and is treated as the circle scheme: the
returned surfaces are sampled at `0.5 + 0.5·cos θ` over cumulative angular
intervals normalized to sum to `π`, reversed to ascending order. -/
theorem C10_circle_fallback (c : Coords ℝ) (n : ℕ) (sch : String) (r : ℝ)
    (hsch : sch ≠ "chord") (hn : 2 ≤ n) (hv : validSurfaces c) :
    ∃ c', splineInterpolation c n sch r = some c' ∧
      c'.x_suction = circleSpecSamples n r ∧
      c'.x_pressure = circleSpecSamples n r := by
  have hx := spacingSamples_of_ne_chord n sch r hsch
  unfold splineInterpolation
  rw [if_neg (by omega), if_neg (not_not_intro hv)]
  exact ⟨_, rfl, hx, hx⟩

/-- C10 (witness): the fallback instantiated at the misspelled scheme
`"cirlce"` with `n = 6`, `rule = 1`. -/
theorem C10_circle_witness :
    ("cirlce" : String) ≠ "chord" ∧ 2 ≤ 6 ∧ validSurfaces flatR ∧
    ∃ c', splineInterpolation flatR 6 "cirlce" 1 = some c' ∧
      c'.x_suction = circleSpecSamples 6 1 ∧
      c'.x_pressure = circleSpecSamples 6 1 :=
  ⟨by decide, by omega, flatR_valid,
    C10_circle_fallback flatR 6 "cirlce" 1 (by decide) (by omega) flatR_valid⟩

end ClaimC10

section Interpolation

/-- In a strictly increasing knot list, exactly the knots with index `≤ j`
are `≤` the `j`-th knot. -/
theorem countP_le_knot (xs : List ℝ) (hsorted : List.Pairwise (· < ·) xs)
    {j : ℕ} (hj : j < xs.length) :
    xs.countP (fun z => decide (z ≤ xs.getD j 0)) = j + 1 := by
  have hgd : xs.getD j 0 = xs[j] := List.getD_eq_getElem xs 0 hj
  have hp : List.Pairwise (· < ·) (xs.take (j + 1) ++ xs.drop (j + 1)) := by
    rw [List.take_append_drop]
    exact hsorted
  rcases List.pairwise_append.mp hp with ⟨hT, _, hTD⟩
  have htake : xs.take (j + 1) = xs.take j ++ [xs[j]] := by
    rw [List.take_succ, List.getElem?_eq_getElem hj]
    rfl
  have hmemj : xs[j] ∈ xs.take (j + 1) := by
    rw [htake]
    exact List.mem_append_right _ (List.mem_singleton_self _)
  have hTle : ∀ a ∈ xs.take (j + 1), a ≤ xs[j] := by
    intro a ha
    rw [htake] at ha
    rcases List.mem_append.mp ha with h | h
    · have hlt : a < xs[j] := by
        have hT2 : List.Pairwise (· < ·) (xs.take j ++ [xs[j]]) := htake ▸ hT
        rcases List.pairwise_append.mp hT2 with ⟨_, _, hx⟩
        exact hx a h _ (List.mem_singleton_self _)
      exact le_of_lt hlt
    · rcases List.mem_singleton.mp h with rfl
      exact le_rfl
  have hDgt : ∀ b ∈ xs.drop (j + 1), xs[j] < b :=
    fun b hb => hTD _ hmemj b hb
  have hcount : xs.countP (fun z => decide (z ≤ xs.getD j 0)) =
      (xs.take (j + 1)).countP (fun z => decide (z ≤ xs.getD j 0)) +
      (xs.drop (j + 1)).countP (fun z => decide (z ≤ xs.getD j 0)) := by
    rw [← List.countP_append, List.take_append_drop]
  rw [hcount]
  have hc1 : (xs.take (j + 1)).countP (fun z => decide (z ≤ xs.getD j 0)) =
      (xs.take (j + 1)).length := by
    rw [List.countP_eq_length]
    intro a ha
    simp only [decide_eq_true_eq]
    rw [hgd]
    exact hTle a ha
  have hc2 : (xs.drop (j + 1)).countP (fun z => decide (z ≤ xs.getD j 0)) = 0 := by
    rw [List.countP_eq_zero]
    intro b hb
    simp only [decide_eq_true_eq]
    rw [hgd]
    exact not_le.mpr (hDgt b hb)
  rw [hc1, hc2, List.length_take]
  omega

/-- Consecutive knots are strictly separated. -/
theorem splineH_pos {xs : List ℝ} (hchain : List.Chain' (· < ·) xs)
    {k : ℕ} (hk : k + 1 < xs.length) : 0 < splineH xs k := by
  have hpw := List.chain'_iff_pairwise.mp hchain
  have hlt : xs[k] < xs[k + 1] :=
    List.pairwise_iff_getElem.mp hpw k (k + 1) (by omega) hk (by omega)
  unfold splineH
  rw [List.getD_eq_getElem xs 0 hk, List.getD_eq_getElem xs 0 (by omega)]
  linarith

/-- The cubic piece in engine coefficient form interpolates its right
endpoint, for any slope values. -/
theorem hermite_piece_identity (a b ya yb s1 s2 : ℝ) (hne : b - a ≠ 0) :
    ya + s1 * (b - a) +
      ((3 * ((yb - ya) / (b - a)) - 2 * s1 - s2) / (b - a)) * (b - a) ^ 2 +
      ((s1 + s2 - 2 * ((yb - ya) / (b - a))) / (b - a) ^ 2) * (b - a) ^ 3 = yb := by
  field_simp
  ring

/-- The interpolation property of the clamped cubic spline: evaluating the
fitted curve at a knot reproduces the knot's y-value exactly (this holds
for any slope values, so it does not depend on the solved system). -/
theorem splineEval_knot (xs ys : List ℝ) (hchain : List.Chain' (· < ·) xs)
    (h2 : 2 ≤ xs.length) {j : ℕ} (hj : j < xs.length) :
    splineEval xs ys (xs.getD j 0) = ys.getD j 0 := by
  have hsorted := List.chain'_iff_pairwise.mp hchain
  have hcount := countP_le_knot xs hsorted hj
  by_cases hcase : j ≤ xs.length - 2
  · have hidx : splineIdx xs (xs.getD j 0) = j := by
      unfold splineIdx
      rw [hcount]
      simp only [Nat.add_sub_cancel]
      exact min_eq_right hcase
    unfold splineEval splinePieceEval
    rw [hidx]
    simp only [sub_self]
    ring
  · have hj' : j = xs.length - 1 := by omega
    have hidx : splineIdx xs (xs.getD j 0) = xs.length - 2 := by
      unfold splineIdx
      rw [hcount]
      simp only [Nat.add_sub_cancel]
      exact min_eq_left (by omega)
    set k := xs.length - 2 with hk
    have hkj : j = k + 1 := by omega
    have hpos : 0 < splineH xs k := splineH_pos hchain (by omega)
    have hne : splineH xs k ≠ 0 := ne_of_gt hpos
    simp only [splineH] at hne
    unfold splineEval
    rw [hidx, hkj]
    simp only [splinePieceEval, splineDelta, splineH]
    exact hermite_piece_identity (xs.getD k 0) (xs.getD (k + 1) 0) (ys.getD k 0)
      (ys.getD (k + 1) 0) (clampedSlopes xs ys k) (clampedSlopes xs ys (k + 1)) hne

/-- Re-evaluating a spline fitted to samples of `g` at the same sample
points reproduces those samples. -/
theorem map_splineEval_knots {xs : List ℝ} (hchain : List.Chain' (· < ·) xs)
    (h2 : 2 ≤ xs.length) (g : ℝ → ℝ) :
    xs.map (splineEval xs (xs.map g)) = xs.map g := by
  apply List.ext_getElem (by simp)
  intro i h1 h2'
  simp only [List.getElem_map]
  have hj : i < xs.length := by simpa using h1
  have hknot := splineEval_knot xs (xs.map g) hchain h2 hj
  rw [List.getD_eq_getElem xs 0 hj] at hknot
  rw [List.getD_eq_getElem _ 0 (by simpa using hj), List.getElem_map] at hknot
  exact hknot

theorem spacing_chain_len (n : ℕ) (sch : String) (r : ℝ)
    (h4 : 4 ≤ n) (hr : 0 < r) :
    List.Chain' (· < ·) (spacingSamples n sch r) ∧
    (spacingSamples n sch r).length = n / 2 := by
  have hp : 1 ≤ nPanels n := by
    unfold nPanels
    omega
  have hlen : nPanels n + 1 = n / 2 := by
    unfold nPanels
    omega
  by_cases hsch : sch = "chord"
  · rw [spacingSamples, if_pos hsch]
    rcases chordSamples_spec (p := nPanels n) hr hp with ⟨hl, hc, _⟩
    exact ⟨hc, by rw [hl, hlen]⟩
  · rw [spacingSamples, if_neg hsch]
    rcases circleSamples_spec (p := nPanels n) hr hp with ⟨hl, hc, _⟩
    exact ⟨hc, by rw [hl, hlen]⟩

end Interpolation

section IdempotenceLemma

/-- Applying `splineInterpolation` to its own output with identical
parameters reproduces that output: the second call fits each surface's
spline through the first call's samples, and a clamped spline evaluated at
its own knots reproduces the knot values exactly. -/
theorem splineInterpolation_idempotent (c c' : Coords ℝ) (n : ℕ) (sch : String) (r : ℝ)
    (h4 : 4 ≤ n) (hr : 0 < r)
    (h1 : splineInterpolation c n sch r = some c') :
    splineInterpolation c' n sch r = some c' := by
  rcases spacing_chain_len n sch r h4 hr with ⟨hxchain, hxlen0⟩
  have hxlen : 2 ≤ (spacingSamples n sch r).length := by
    rw [hxlen0]
    omega
  unfold splineInterpolation at h1 ⊢
  rw [if_neg (show ¬ n < 2 by omega)] at h1 ⊢
  split at h1
  · exact absurd h1 (by simp)
  have hc' : c' =
      { x := (spacingSamples n sch r).reverse.dropLast ++ spacingSamples n sch r
        y := ((spacingSamples n sch r).map
            (splineEval c.x_pressure c.y_pressure)).reverse.dropLast ++
          (spacingSamples n sch r).map (splineEval c.x_suction c.y_suction)
        x_suction := spacingSamples n sch r
        y_suction := (spacingSamples n sch r).map
          (splineEval c.x_suction c.y_suction)
        x_pressure := spacingSamples n sch r
        y_pressure := (spacingSamples n sch r).map
          (splineEval c.x_pressure c.y_pressure) } :=
    (Option.some.inj h1).symm
  have hv' : validSurfaces c' := by
    rw [hc']
    exact ⟨hxchain, by simp, hxlen, hxchain, by simp, hxlen⟩
  rw [if_neg (not_not_intro hv')]
  have hsuc := map_splineEval_knots hxchain hxlen
    (splineEval c.x_suction c.y_suction)
  have hpre := map_splineEval_knots hxchain hxlen
    (splineEval c.x_pressure c.y_pressure)
  rw [hc']
  simp only [hsuc, hpre]

end IdempotenceLemma

theorem option_eq_some_getD {A : Type} (o : Option A) (d : A) (h : o.isSome) :
    o = some (o.getD d) := by
  cases o with
  | none => exact absurd h (by simp)
  | some a => rfl

section AirfoilClass

/-- The `Airfoil` class state (`Airfoil.py` lines 120-132): the identifying
code, the raw coordinate arrays, and the single `coordinates` slot. -/
structure Airfoil where
  code : String
  xraw : List ℝ
  yraw : List ℝ
  coordinates : Coords ℝ

/-- `Airfoil.__init__` (`Airfoil.py` lines 122-128): store the raw arrays
and parse them once; the network fetch is the out-of-scope collaborator, so
raw coordinates are supplied directly. -/
noncomputable def mkAirfoil (code : String) (xraw yraw : List ℝ) : Option Airfoil :=
  (parseCoordinates xraw yraw).map fun c => ⟨code, xraw, yraw, c⟩

/-- `Airfoil.splineInterpolation` (`Airfoil.py` lines 131-132):
`self.coordinates = splineInterpolation(self.coordinates, n, scheme, rule)` —
the one coordinates slot is overwritten with the interpolated result; when
the call raises, no assignment happens (`none` here). -/
noncomputable def Airfoil.splineInterpolation (a : Airfoil) (n : ℕ) (sch : String)
    (r : ℝ) : Option Airfoil :=
  (SmartWing.splineInterpolation a.coordinates n sch r).map
    fun c => ⟨a.code, a.xraw, a.yraw, c⟩

/-- The diamond raw input over `ℝ`: `x=[0,1,0.5,0.5]`. -/
noncomputable def diamondXR : List ℝ := [0, 1, 1/2, 1/2]

/-- The diamond raw input over `ℝ`: `y=[0,0,0.1,-0.1]`. -/
noncomputable def diamondYR : List ℝ := [0, 0, 1/10, -1/10]

theorem parse_diamondR : parseCoordinates diamondXR diamondYR = some flatR := by
  norm_num [parseCoordinates, limitsSurf1, limitsSurf2, argsort, diamondXR, diamondYR,
    List.insertionSort, List.orderedInsert, minl, maxl, min2, max2, sliceIncl,
    surfacePoints, sortPairs, lexLe, flatR]

/-- The `Airfoil` built from the diamond input. -/
noncomputable def diamondAirfoil : Airfoil := ⟨"diamond", diamondXR, diamondYR, flatR⟩

end AirfoilClass

section ClaimC8

/-- C8 (counterexample): resampling the diamond airfoil with
`n=10, scheme="chord", rule=0.9` succeeds and leaves an `x_suction` with 5
points where the parsed state had 2 — the parsed contour and surfaces are
NOT retained: `self.coordinates` is overwritten in place. -/
theorem C8_counterexample :
    mkAirfoil "diamond" diamondXR diamondYR = some diamondAirfoil ∧
    (diamondAirfoil.splineInterpolation 10 "chord" (9 / 10)).map
        (fun a => a.coordinates.x_suction.length) = some 5 ∧
    diamondAirfoil.coordinates.x_suction.length = 2 ∧
    (diamondAirfoil.splineInterpolation 10 "chord" (9 / 10)).map
        Airfoil.coordinates ≠ some diamondAirfoil.coordinates := by
  have hlen : (spacingSamples 10 "chord" (9 / 10)).length = 5 :=
    (spacing_chain_len 10 "chord" (9 / 10) (by omega) (by norm_num)).2
  have hres : (SmartWing.splineInterpolation flatR 10 "chord" (9 / 10)).map
      (fun c => c.x_suction.length) = some 5 := by
    unfold SmartWing.splineInterpolation
    rw [if_neg (by omega), if_neg (not_not_intro flatR_valid)]
    simpa using hlen
  have hmain : (diamondAirfoil.splineInterpolation 10 "chord" (9 / 10)).map
      (fun a => a.coordinates.x_suction.length) = some 5 := by
    rw [Airfoil.splineInterpolation, Option.map_map]
    exact hres
  refine ⟨?_, hmain, rfl, ?_⟩
  · rw [mkAirfoil, parse_diamondR]
    rfl
  · intro h
    have h2 := congrArg (Option.map (fun c : Coords ℝ => c.x_suction.length)) h
    rw [Option.map_map] at h2
    have h5 : Option.map ((fun c : Coords ℝ => c.x_suction.length) ∘ Airfoil.coordinates)
        (diamondAirfoil.splineInterpolation 10 "chord" (9 / 10)) = some 5 := hmain
    rw [h5] at h2
    simp [diamondAirfoil, flatR] at h2

/-- C8 (amended): `Airfoil.splineInterpolation` replaces the single
`self.coordinates` slot wholesale with the interpolated result (the parsed
contour and surfaces are not kept separately); only `code`, `xraw` and
`yraw` are retained unchanged. -/
theorem C8_resample_state (a : Airfoil) (n : ℕ) (sch : String) (r : ℝ) :
    ((a.splineInterpolation n sch r).getD a).code = a.code ∧
    ((a.splineInterpolation n sch r).getD a).xraw = a.xraw ∧
    ((a.splineInterpolation n sch r).getD a).yraw = a.yraw ∧
    ((a.splineInterpolation n sch r).getD a).coordinates =
      (SmartWing.splineInterpolation a.coordinates n sch r).getD a.coordinates := by
  unfold Airfoil.splineInterpolation
  cases h : SmartWing.splineInterpolation a.coordinates n sch r with
  | none => exact ⟨rfl, rfl, rfl, rfl⟩
  | some c => exact ⟨rfl, rfl, rfl, rfl⟩

end ClaimC8

section ClaimC9

/-- C9: calling resample twice in succession on the same airfoil with
identical `(n, scheme, rule)` parameters yields identical interpolated
results both times: the second call fits each surface's spline through the
first call's samples, and a clamped spline evaluated at its own knots
reproduces the knot values exactly (proved here in exact real
arithmetic). -/
theorem C9_resample_idempotent (a a' : Airfoil) (n : ℕ) (sch : String) (r : ℝ)
    (h4 : 4 ≤ n) (hr : 0 < r)
    (h1 : a.splineInterpolation n sch r = some a') :
    a'.splineInterpolation n sch r = some a' := by
  rw [Airfoil.splineInterpolation] at h1
  cases hc : SmartWing.splineInterpolation a.coordinates n sch r with
  | none =>
    rw [hc] at h1
    exact absurd h1 (by simp)
  | some c =>
    rw [hc] at h1
    simp only [Option.map_some'] at h1
    have ha' : a' = ⟨a.code, a.xraw, a.yraw, c⟩ := (Option.some.inj h1).symm
    subst ha'
    rw [Airfoil.splineInterpolation]
    have h2 : SmartWing.splineInterpolation c n sch r = some c :=
      splineInterpolation_idempotent a.coordinates c n sch r h4 hr hc
    rw [show (⟨a.code, a.xraw, a.yraw, c⟩ : Airfoil).coordinates = c from rfl, h2]
    rfl

/-- The diamond airfoil after one resampling pass. -/
noncomputable def diamondResampled : Airfoil :=
  (diamondAirfoil.splineInterpolation 4 "chord" 1).getD diamondAirfoil

/-- C9 (witness): idempotence instantiated on the diamond airfoil at
`n = 4`, `scheme = "chord"`, `rule = 1`. -/
theorem C9_resample_witness :
    4 ≤ 4 ∧ (0 : ℝ) < 1 ∧
    diamondAirfoil.splineInterpolation 4 "chord" 1 = some diamondResampled ∧
    diamondResampled.splineInterpolation 4 "chord" 1 = some diamondResampled := by
  have hsome : (diamondAirfoil.splineInterpolation 4 "chord" 1).isSome := by
    rw [Airfoil.splineInterpolation]
    have h := @splineInterpolation_isSome flatR 4 "chord" 1 (by omega) flatR_valid
    rw [show diamondAirfoil.coordinates = flatR from rfl]
    cases hc : SmartWing.splineInterpolation flatR 4 "chord" 1 with
    | none => rw [hc] at h; exact absurd h (by simp)
    | some c => rfl
  have heq : diamondAirfoil.splineInterpolation 4 "chord" 1 = some diamondResampled :=
    option_eq_some_getD _ _ hsome
  exact ⟨by omega, by norm_num, heq,
    C9_resample_idempotent diamondAirfoil diamondResampled 4 "chord" 1
      (by omega) (by norm_num) heq⟩

end ClaimC9

end SmartWing
